import Mathlib

/-!
Verification of the SGNMT reference (forced) decoder and output handlers.

Shallow embedding of `cam/sgnmt/decoding/reference.py` and
`cam/sgnmt/output.py`.  Predictor ensembles, symbol ids and a few utility
functions (`cam.sgnmt.utils`, `cam.sgnmt.io`, `cam.sgnmt.decoding.core`) are
not part of the two source files; they are modelled from the specification
and marked as such in their doc comments.  Python floats are modelled as
rationals (exact arithmetic) except for the ngram posterior computation,
which needs `exp`/`log` and is modelled over the reals.
-/

/-- Modelled from the spec: `utils.EOS_ID`, the reserved end-of-sequence
symbol id ("reserved values exist for start-of-sequence, end-of-sequence,
and unknown-symbol").  The concrete value is irrelevant; we fix it. -/
def EOS_ID : ℕ := 2

/-- Modelled from the spec: `utils.GO_ID`, the reserved start-of-sequence
symbol id. -/
def GO_ID : ℕ := 1

/-- Modelled from the spec: the value triple returned by
`Decoder.apply_predictors` ("It returns: the candidate id set, the combined
score per candidate, and the raw per-predictor score vector per candidate").
`ids` and `posterior` are aligned by position, as in `posterior[ind]` with
`ind` an index into `ids`. -/
structure ApplyResult where
  ids : List ℕ
  posterior : List ℚ
  score_breakdown : List (List (ℚ × ℚ))

/-- Modelled from the spec: the predictor ensemble behind
`cam.sgnmt.decoding.core.Decoder` (not under `src/`), with its mutable
cursor made explicit as a state `σ`.  `apply` embodies `apply_predictors`
(pure: `score_next` "must not mutate state"), `consume` advances the state
on an emitted symbol. -/
structure Ensemble (σ : Type) where
  apply : σ → ApplyResult
  consume : σ → ℕ → σ

/-- Modelled from the spec: `cam.sgnmt.decoding.core.PartialHypothesis`
(not under `src/`): symbol sequence so far, cumulative score, per-step
score breakdown, ensemble state snapshot.  The breakdown entry type is a
plain rational because `reference.py` line 48 appends the scalar
`posterior[ind]` (never reached, see `expand_hypo`). -/
structure PartialHypothesis (σ : Type) where
  trgt_sentence : List ℕ
  score : ℚ
  score_breakdown : List ℚ
  predictor_states : σ

/-- Runtime failures of the embedded decoder.  `nameError` and
`indexError` model the corresponding Python exceptions; `symbolNotScored`
models the spec's `SymbolNotScoredError` (no such error exists in the
source); `outOfFuel` models non-termination of the unbounded `while`
loop in `ReferenceDecoder.decode`. -/
inductive DecodeErr where
  | nameError
  | indexError
  | symbolNotScored
  | outOfFuel
deriving DecidableEq

/-- Embedding of `ReferenceDecoder._expand_hypo` (reference.py lines
37-50), faithful to the source:
line 39 restores the ensemble cursor to `hypo.predictor_states`;
line 40 reads `next_word = self.trgt_sentence[len(hypo.trgt_sentence)]`
(an `IndexError` when out of range);
line 41 calls `apply_predictors`;
line 42 evaluates `utils.binary_search(ids, k)` where the name `k` is
unbound, so the step raises `NameError`.  Lines 44-50 (snapshot, score
and breakdown append, `consume`) are unreachable. -/
def expand_hypo {σ : Type} (ens : Ensemble σ) (trgt_sentence : List ℕ)
    (hypo : PartialHypothesis σ) : Except DecodeErr (PartialHypothesis σ) :=
  match trgt_sentence.get? hypo.trgt_sentence.length with
  | none => .error .indexError
  | some _next_word =>
      let _res := ens.apply hypo.predictor_states
      .error .nameError

/-- Embedding of the `while hypo.get_last_word() != utils.EOS_ID` loop of
`ReferenceDecoder.decode` (reference.py lines 29-30), with explicit fuel
standing in for the unbounded iteration. -/
def decodeLoop {σ : Type} (ens : Ensemble σ) (trgt_sentence : List ℕ) :
    ℕ → PartialHypothesis σ → Except DecodeErr (PartialHypothesis σ)
  | 0, _ => .error .outOfFuel
  | fuel + 1, hypo =>
      if hypo.trgt_sentence.getLast? = some EOS_ID then .ok hypo
      else
        match expand_hypo ens trgt_sentence hypo with
        | .error e => .error e
        | .ok hypo' => decodeLoop ens trgt_sentence fuel hypo'

/-- Embedding of `ReferenceDecoder.decode` (reference.py lines 24-34):
line 25 appends `utils.EOS_ID` to the target unconditionally; line 28
creates the root hypothesis with empty sequence and the initial ensemble
snapshot `s0`; then the expansion loop runs until the last word is
end-of-sequence.  The post-loop score adjustment is never reached when the
loop fails. -/
def referenceDecode {σ : Type} (ens : Ensemble σ) (s0 : σ)
    (trgt_sentence : List ℕ) (fuel : ℕ) :
    Except DecodeErr (PartialHypothesis σ) :=
  decodeLoop ens (trgt_sentence ++ [EOS_ID]) fuel
    { trgt_sentence := [], score := 0, score_breakdown := [],
      predictor_states := s0 }

/-- Trivial concrete ensemble over a unit state, used to instantiate the
decoding theorems: no candidates, `consume` is the identity. -/
def unitEnsemble : Ensemble Unit :=
  { apply := fun _ => ⟨[], [], []⟩, consume := fun s _ => s }

/-- Root hypothesis over the unit state: empty sequence, zero score. -/
def rootHypU : PartialHypothesis Unit :=
  { trgt_sentence := [], score := 0, score_breakdown := [],
    predictor_states := () }

/-- Modelled from the spec: `io.decode` ("symbol encoding/decoding between
surface text and integer ids" is out of scope), producing the
"space-joined decoded symbols" of a sentence. -/
def ioDecode (syms : List ℕ) : String :=
  String.intercalate " " (syms.map toString)

/-- Hypothesis as consumed by the output handlers in `output.py`: symbol
sequence, per-step score breakdown (one `(log-probability, weight)`
pair per predictor, as accessed by `s[i][0]` and `s[i][1]`), and
`total_score`.  Floats are modelled as rationals. -/
structure OutHyp where
  trgt_sentence : List ℕ
  score_breakdown : List (List (ℚ × ℚ))
  total_score : ℚ
deriving DecidableEq

/-- Entry `s[i]` of one step's breakdown, totalized with a zero default
(Python would raise `IndexError` past the end; the theorems below never
depend on the default). -/
def scoreEntry (s : List (ℚ × ℚ)) (i : ℕ) : ℚ × ℚ :=
  (s.get? i).getD (0, 0)

/-- Embedding of `sum([s[i][0] for s in hypo.score_breakdown])`
(output.py line 219): predictor `i`'s summed primary score component. -/
def predSum (bd : List (List (ℚ × ℚ))) (i : ℕ) : ℚ :=
  (bd.map (fun s => (scoreEntry s i).1)).sum

/-- Embedding of Python `str.replace("_", "0")` (output.py line 205); for
the one-character pattern this is a map over the string's characters. -/
def replaceUnderscores (s : String) : String :=
  String.mk (s.data.map (fun c => if c = '_' then '0' else c))

/-- Embedding of the `name_count` loop of `NBestOutputHandler.__init__`
(output.py lines 196-205), with the dictionary modelled as a function
(`m s = 0` means `s not in name_count`): the first occurrence of a name is
kept, the k-th repeated occurrence is suffixed with its occurrence count
k, and each resulting name has `_` replaced by `0`. -/
def initPredictorNames : (String → ℕ) → List String → List String
  | _, [] => []
  | m, name :: rest =>
      if m name = 0 then
        replaceUnderscores name ::
          initPredictorNames (fun s => if s = name then 1 else m s) rest
      else
        replaceUnderscores (name ++ toString (m name + 1)) ::
          initPredictorNames (fun s => if s = name then m name + 1 else m s) rest

/-- The derived predictor-name list stored as `self.predictor_names` by
`NBestOutputHandler.__init__`. -/
def predictorNames (names : List String) : List String :=
  initPredictorNames (fun _ => 0) names

/-- One Moses n-best line as written by `NBestOutputHandler.write_hypos`
(output.py lines 214-221), `index ||| decoded_text ||| name= value ...
||| total_score`, with the float rendering abstracted into fields. -/
structure MosesLine where
  sen_index : ℕ
  text : String
  fields : List (String × ℚ)
  total_score : ℚ
deriving DecidableEq

/-- The line written for one hypothesis: caller-supplied sentence index,
decoded symbols, one `name= value` field per predictor position with the
summed primary component, and the hypothesis's total score. -/
def mosesLine (names : List String) (idx : ℕ) (h : OutHyp) : MosesLine :=
  { sen_index := idx,
    text := ioDecode h.trgt_sentence,
    fields := (List.range names.length).map
      (fun i => (names.getD i "", predSum h.score_breakdown i)),
    total_score := h.total_score }

/-- The two nested loops of `NBestOutputHandler.write_hypos` (output.py
lines 212-223) over `zip(sen_indices, all_hypos)`; the trailing
`idx += 1` at line 223 rebinds the loop variable and has no effect. -/
def nbestLines (names : List String) : List (ℕ × List OutHyp) → List MosesLine
  | [] => []
  | (idx, hypos) :: rest =>
      hypos.map (mosesLine names idx) ++ nbestLines names rest

/-- Embedding of `NBestOutputHandler.write_hypos` (output.py 208-223). -/
def NBest_write_hypos (names : List String) (all_hypos : List (List OutHyp))
    (sen_indices : List ℕ) : List MosesLine :=
  nbestLines names (sen_indices.zip all_hypos)

/-- Embedding of `ScoreOutputHandler.write_hypos` (output.py 132-133):
the body is `pass`, so the file contents (modelled as the list of lines
written so far, one literal list of rationals per line) are unchanged. -/
def Score_write_hypos (fileLines : List (List ℚ))
    (all_hypos : List (List OutHyp)) (sen_indices : List ℕ) :
    List (List ℚ) :=
  fileLines

/-- Embedding of `ScoreOutputHandler.write_score` (output.py 119-130):
appends one line, `str([s[0][0] for s in score])` — the primary component
of each step's first-predictor entry, as a literal list. -/
def Score_write_score (fileLines : List (List ℚ))
    (score : List (List (ℚ × ℚ))) : List (List ℚ) :=
  fileLines ++ [score.map (fun s => (scoreEntry s 0).1)]

/-- Failure of an output handler (the `IndexError` that `hypos[-1]`
raises on an empty list). -/
inductive OutErr where
  | indexError
deriving DecidableEq

/-- Embedding of the padding loop of
`NBestSeparateOutputHandler.write_hypos` (output.py lines 160-161):
`while len(hypos) < len(self.f): hypos.append(hypos[-1])`; on an empty
list `hypos[-1]` raises `IndexError`. -/
def padHypos (n : ℕ) (hypos : List OutHyp) : Except OutErr (List OutHyp) :=
  if h : hypos.length < n then
    match hypos.getLast? with
    | none => .error .indexError
    | some last => padHypos n (hypos ++ [last])
  else .ok hypos
termination_by n - hypos.length
decreasing_by simp; omega

/-- Placeholder hypothesis for totalized list indexing (never reached in
the theorems below). -/
def dummyHyp : OutHyp :=
  { trgt_sentence := [], score_breakdown := [], total_score := 0 }

/-- One iteration of the outer loop of
`NBestSeparateOutputHandler.write_hypos` (output.py lines 159-165): pad
the n-best list to the number of open files, then append the decoded
`hypos[i]` as one line to file `i` for every `i`.  The files are modelled
as a list of line lists. -/
def nbsepStep (files : List (List String)) (hypos : List OutHyp) :
    Except OutErr (List (List String)) :=
  (padHypos files.length hypos).map (fun padded =>
    (List.range files.length).map (fun i =>
      files.getD i [] ++ [ioDecode (padded.getD i dummyHyp).trgt_sentence]))

/-- Embedding of `NBestSeparateOutputHandler.write_hypos` (output.py
155-165), iterated over all inputs. -/
def NBestSeparate_write_hypos (files : List (List String)) :
    List (List OutHyp) → Except OutErr (List (List String))
  | [] => .ok files
  | hypos :: rest =>
      (nbsepStep files hypos).bind
        (fun files' => NBestSeparate_write_hypos files' rest)

/-- Rank-`i`-or-last selection: the hypothesis whose text file `i`
receives for one input under the padding semantics. -/
def nthOrLast (i : ℕ) (hypos : List OutHyp) : OutHyp :=
  if i < hypos.length then hypos.getD i dummyHyp
  else hypos.getD (hypos.length - 1) dummyHyp

/-- Embedding of `FSTOutputHandler.write_weight` (output.py 384-392): the
sparse-tuple arc weight for one step's breakdown, `'0'` followed for each
predictor index `idx` by `idx+1` and the negated primary score, as the
list of comma-joined tokens (numerals abstracted to their values). -/
def write_weight (score_breakdown : List (ℚ × ℚ)) : List ℚ :=
  score_breakdown.enum.foldl
    (fun els p => els ++ [((p.1 : ℚ) + 1), -p.2.1]) [0]

/-- Closed recursive form of the `write_weight` token list after the
leading `'0'`. -/
def weightChunks : ℕ → List (ℚ × ℚ) → List ℚ
  | _, [] => []
  | idx, s :: rest => ((idx : ℚ) + 1) :: (-s.1) :: weightChunks (idx + 1) rest

/-- Modelled from the spec: `utils.log_sum` ("Computes a normalized
distribution over the n-best list via log-sum-exp of `total_score`"),
over exact reals. -/
noncomputable def log_sum (xs : List ℝ) : ℝ :=
  Real.log (xs.map Real.exp).sum

/-- Hypothesis as consumed by `NgramOutputHandler`: symbol sequence and
`total_score` (a log-likelihood, modelled as a real number). -/
structure NgramHyp where
  trgt_sentence : List ℕ
  total_score : ℝ

/-- Embedding of `sen_eos = [utils.GO_ID] + hypo.trgt_sentence +
[utils.EOS_ID]` (output.py line 336). -/
def senEos (h : NgramHyp) : List ℕ :=
  GO_ID :: (h.trgt_sentence ++ [EOS_ID])

/-- Embedding of the Python slice `hist[-order:]`: the last `order`
elements, the whole list when `order` is zero (`hist[-0:] == hist[0:]`)
or at least the length. -/
def pyTail (order : ℕ) (l : List ℕ) : List ℕ :=
  if order = 0 then l else l.drop (l.length - order)

/-- Embedding of the ngram-collection loops of
`NgramOutputHandler.write_hypos` (output.py lines 335-341): hypothesis
`h` contributes ngram `g` iff for some position `pos` in `1..len(sen_eos)`
and some `order` in `min_order..max_order`, the last `order` symbols of
`sen_eos[:pos]` equal `g`. -/
def hypoHasNgram (minOrder maxOrder : ℕ) (sen : List ℕ) (g : List ℕ) : Bool :=
  (List.range sen.length).any (fun p =>
    (List.range (maxOrder + 1 - minOrder)).any (fun o =>
      pyTail (minOrder + o) (sen.take (p + 1)) == g))

/-- Embedding of the posterior computed by `NgramOutputHandler.write_hypos`
(output.py lines 331-345) for one ngram `g`: with
`total = log_sum(total_scores)` and `normed_scores = total_score - total`,
the exponentiated log-sum of the normed scores of exactly those hypotheses
containing `g` (presence is binary: the dict stores each contributing
hypothesis index once). -/
noncomputable def ngramPosterior (hypos : List NgramHyp)
    (minOrder maxOrder : ℕ) (g : List ℕ) : ℝ :=
  Real.exp (log_sum
    ((hypos.filter (fun h => hypoHasNgram minOrder maxOrder (senEos h) g)).map
      (fun h => h.total_score - log_sum (hypos.map NgramHyp.total_score))))

/-- Concrete two-step hypothesis used to instantiate the Moses n-best
theorem: symbols `5, 2`, one predictor, scores `-1/2` and `-1/4`. -/
def mosesHyp : OutHyp :=
  { trgt_sentence := [5, 2],
    score_breakdown := [[(-1/2, 1)], [(-1/4, 1)]],
    total_score := -3/4 }

/-- Concrete hypothesis for the Score-handler counterexample. -/
def sampleHyp : OutHyp :=
  { trgt_sentence := [5, 2],
    score_breakdown := [[(-1/2, 1)], [(-1/4, 1)]],
    total_score := -3/4 }

/-- Single-symbol hypothesis used by the per-rank-file theorem. -/
def wHyp (k : ℕ) : OutHyp :=
  { trgt_sentence := [k], score_breakdown := [], total_score := 0 }

/-- The spec's per-rank example: three inputs with n-best sizes 3, 1, 2. -/
def wAll : List (List OutHyp) :=
  [[wHyp 11, wHyp 12, wHyp 13], [wHyp 21], [wHyp 31, wHyp 32]]

/-- Concrete two-predictor step breakdown for the arc-weight theorem. -/
def wSb : List (ℚ × ℚ) := [(-1/2, 1), (-1/3, 1)]
/-- Helper: whenever the required position exists in the target, the
expansion step fails with `NameError` (the unbound `k` at reference.py
line 42). -/
theorem expand_hypo_nameError {σ : Type} (ens : Ensemble σ)
    (trgt_sentence : List ℕ) (hypo : PartialHypothesis σ)
    (h : hypo.trgt_sentence.length < trgt_sentence.length) :
    expand_hypo ens trgt_sentence hypo = .error .nameError := by
  unfold expand_hypo
  rw [List.get?_eq_get h]

/-- C1: For every forced-decoding step, the score added is the required
symbol's combined score, the appended breakdown entry its per-predictor
vector, the appended symbol the required one.  The code does none of this:
whenever the required position exists, `_expand_hypo` stops with
`NameError` at reference.py line 42 (`utils.binary_search(ids, k)` with
`k` unbound), so no score, breakdown entry or symbol is ever appended;
the per-predictor vector returned by `apply_predictors` is discarded
(`ids, posterior, _`), and line 48 would append the scalar
`posterior[ind]`, not the vector. -/
theorem forced_step_appends_nothing {σ : Type} (ens : Ensemble σ)
    (trgt_sentence : List ℕ) (hypo : PartialHypothesis σ)
    (h : hypo.trgt_sentence.length < trgt_sentence.length) :
    expand_hypo ens trgt_sentence hypo = .error .nameError :=
  expand_hypo_nameError ens trgt_sentence hypo h

/-- Witness for C1 at a concrete input: one predictor step on target `[5]`
from the root hypothesis fails with `NameError`. -/
theorem forced_step_appends_nothing_witness :
    expand_hypo unitEnsemble [5] rootHypU = .error .nameError :=
  forced_step_appends_nothing unitEnsemble [5] rootHypU (by decide)

/-- C2: The claim says a required symbol absent from the candidate set
makes the step fail with `SymbolNotScoredError`.  The code has no such
error: with the required symbol absent from `apply_predictors`' candidate
ids, the step still fails with `NameError` (the unbound `k` at
reference.py line 42), which is not `SymbolNotScoredError`. -/
theorem forced_step_no_symbolNotScored {σ : Type} (ens : Ensemble σ)
    (trgt_sentence : List ℕ) (hypo : PartialHypothesis σ) (w : ℕ)
    (hw : trgt_sentence.get? hypo.trgt_sentence.length = some w)
    (habs : w ∉ (ens.apply hypo.predictor_states).ids) :
    expand_hypo ens trgt_sentence hypo = .error .nameError ∧
      DecodeErr.nameError ≠ DecodeErr.symbolNotScored := by
  refine ⟨?_, by decide⟩
  unfold expand_hypo
  rw [hw]

/-- Witness for C2 at a concrete input: target `[5]`, root hypothesis,
ensemble scoring no candidates at all (so `5` is absent). -/
theorem forced_step_no_symbolNotScored_witness :
    expand_hypo unitEnsemble [5] rootHypU = .error .nameError ∧
      DecodeErr.nameError ≠ DecodeErr.symbolNotScored :=
  forced_step_no_symbolNotScored unitEnsemble [5] rootHypU 5
    (by decide) (by decide)

/-- C3: The claim says the snapshot stored on the hypothesis is the
ensemble state captured after `consume(required_symbol)`.  In the code,
line 45 stores `get_predictor_states()` before `consume` runs at line 50,
and in fact the step never completes at all: no expansion step ever
returns an updated hypothesis (let alone one holding a post-consume
snapshot), because of the `NameError` at reference.py line 42. -/
theorem forced_step_stores_no_snapshot {σ : Type} (ens : Ensemble σ)
    (trgt_sentence : List ℕ) (hypo : PartialHypothesis σ)
    (h : hypo.trgt_sentence.length < trgt_sentence.length)
    (hypo' : PartialHypothesis σ) :
    expand_hypo ens trgt_sentence hypo ≠ .ok hypo' := by
  rw [expand_hypo_nameError ens trgt_sentence hypo h]
  exact fun hc => Except.noConfusion hc

/-- Witness for C3 at a concrete input. -/
theorem forced_step_stores_no_snapshot_witness :
    expand_hypo unitEnsemble [5] rootHypU ≠ .ok rootHypU :=
  forced_step_stores_no_snapshot unitEnsemble [5] rootHypU (by decide) rootHypU

/-- C4: The claim says forced decoding terminates with a breakdown of
length `L` and `cumulative_score` the sum of the per-step combined scores.
The code never gets there: for any target sentence, any ensemble and any
positive step budget, `ReferenceDecoder.decode` fails with `NameError` at
its very first expansion step and produces no hypothesis. -/
theorem referenceDecode_always_fails {σ : Type} (ens : Ensemble σ)
    (s0 : σ) (trgt_sentence : List ℕ) (fuel : ℕ) (h : 0 < fuel) :
    referenceDecode ens s0 trgt_sentence fuel = .error .nameError := by
  obtain ⟨n, rfl⟩ := Nat.exists_eq_add_of_lt h
  unfold referenceDecode decodeLoop
  rw [Nat.zero_add]
  have hexp : expand_hypo ens (trgt_sentence ++ [EOS_ID])
      { trgt_sentence := [], score := 0, score_breakdown := [],
        predictor_states := s0 } = .error .nameError := by
    apply expand_hypo_nameError
    simp
  simp [hexp]

/-- Witness for C4 at the spec's own example target `[5, 9]` with budget 7. -/
theorem referenceDecode_always_fails_witness :
    referenceDecode unitEnsemble () [5, 9] 7 = .error .nameError :=
  referenceDecode_always_fails unitEnsemble () [5, 9] 7 (by decide)


/-- Helper: every hypothesis of every (index, n-best list) pair in the
zipped input contributes its Moses line to the output. -/
theorem nbestLines_mem (names : List String) :
    ∀ (l : List (ℕ × List OutHyp)) (idx : ℕ) (hypos : List OutHyp)
      (h : OutHyp), (idx, hypos) ∈ l → h ∈ hypos →
      mosesLine names idx h ∈ nbestLines names l := by
  intro l
  induction l with
  | nil => intro idx hypos h hm; simp at hm
  | cons p rest ih =>
      intro idx hypos h hm hh
      obtain ⟨pi, phyp⟩ := p
      rcases List.mem_cons.mp hm with heq | hmem
      · obtain ⟨rfl, rfl⟩ := Prod.mk.injEq .. ▸ heq
        exact List.mem_append_left _ (List.mem_map_of_mem _ hh)
      · exact List.mem_append_right _ (ih idx hypos h hmem hh)

/-- C5: For every n-best list and every hypothesis in it, the Moses
serializer emits the line whose index is the caller-supplied 0-based
sentence index, whose text is the decoded symbols, whose field for
predictor position `i` carries the sum over all steps of that step's
ScoreEntry primary component at position `i`, and whose final field is
the hypothesis's total score. -/
theorem moses_nbest_line (names : List String)
    (all_hypos : List (List OutHyp)) (sen_indices : List ℕ) (idx : ℕ)
    (hypos : List OutHyp) (h : OutHyp)
    (hmem : (idx, hypos) ∈ sen_indices.zip all_hypos) (hh : h ∈ hypos) :
    mosesLine names idx h ∈ NBest_write_hypos names all_hypos sen_indices ∧
    (mosesLine names idx h).sen_index = idx ∧
    (mosesLine names idx h).text = ioDecode h.trgt_sentence ∧
    (mosesLine names idx h).fields = (List.range names.length).map
      (fun i => (names.getD i "", predSum h.score_breakdown i)) ∧
    (mosesLine names idx h).total_score = h.total_score :=
  ⟨nbestLines_mem names _ idx hypos h hmem hh, rfl, rfl, rfl, rfl⟩

/-- Witness for C5 at a concrete input: one sentence with caller index 7
and a single two-step hypothesis. -/
theorem moses_nbest_line_witness :
    mosesLine ["nmt"] 7 mosesHyp ∈
      NBest_write_hypos ["nmt"] [[mosesHyp]] [7] ∧
    (mosesLine ["nmt"] 7 mosesHyp).sen_index = 7 ∧
    (mosesLine ["nmt"] 7 mosesHyp).text = ioDecode mosesHyp.trgt_sentence ∧
    (mosesLine ["nmt"] 7 mosesHyp).fields = (List.range 1).map
      (fun i => ((["nmt"] : List String).getD i "",
        predSum mosesHyp.score_breakdown i)) ∧
    (mosesLine ["nmt"] 7 mosesHyp).total_score = mosesHyp.total_score := by
  have h := moses_nbest_line ["nmt"] [[mosesHyp]] [7] 7 [mosesHyp] mosesHyp
    (by simp) (by simp)
  simpa using h

/-- C6 counterexample: passed through the common serializer interface
`write_hypos`, the Score handler writes nothing at all (the method body is
`pass`, output.py lines 132-133): on a one-input batch the file gains no
line, while the claim requires one line per input, here the literal list
`[-1/2, -1/4]` of first-predictor primary components. -/
theorem score_write_hypos_writes_nothing :
    Score_write_hypos [] [[sampleHyp]] [0] = ([] : List (List ℚ)) ∧
    ([] : List (List ℚ)) ≠ [[-1/2, -1/4]] := by
  exact ⟨rfl, by simp⟩

/-- C6 as amended: the Score handler's `write_hypos` is a no-op; the
literal list of each step's first-predictor primary component is written
by its separate `write_score` method, one line per call. -/
theorem score_handler_amended (fileLines : List (List ℚ))
    (all_hypos : List (List OutHyp)) (sen_indices : List ℕ)
    (score : List (List (ℚ × ℚ))) :
    Score_write_hypos fileLines all_hypos sen_indices = fileLines ∧
    Score_write_score fileLines score =
      fileLines ++ [score.map (fun s => (scoreEntry s 0).1)] ∧
    (Score_write_score fileLines score).length = fileLines.length + 1 := by
  refine ⟨rfl, rfl, ?_⟩
  simp [Score_write_score]

/-- Helper: the `write_weight` fold, started from any accumulator and any
enumeration offset, appends the chunked token list. -/
theorem weight_foldl (sb : List (ℚ × ℚ)) :
    ∀ (n : ℕ) (acc : List ℚ),
      (sb.enumFrom n).foldl (fun els p => els ++ [((p.1 : ℚ) + 1), -p.2.1]) acc
        = acc ++ weightChunks n sb := by
  induction sb with
  | nil => intro n acc; simp [weightChunks]
  | cons s rest ih =>
      intro n acc
      rw [List.enumFrom_cons, List.foldl_cons, ih (n + 1)]
      simp [weightChunks]

/-- Helper: `write_weight` is the anchor token `0` followed by the
alternating index/score chunks. -/
theorem write_weight_eq (sb : List (ℚ × ℚ)) :
    write_weight sb = 0 :: weightChunks 0 sb := by
  unfold write_weight
  have h : sb.enum = sb.enumFrom 0 := rfl
  rw [h, weight_foldl sb 0 [0]]
  rfl

/-- Helper: length of the chunked token list. -/
theorem weightChunks_length (sb : List (ℚ × ℚ)) :
    ∀ n, (weightChunks n sb).length = 2 * sb.length := by
  induction sb with
  | nil => intro n; simp [weightChunks]
  | cons s rest ih => intro n; simp [weightChunks, ih (n + 1)]; ring

/-- Helper: positional access into the chunked token list: chunk `i`
holds the token pair `(n + i + 1, -primary)`. -/
theorem weightChunks_get (sb : List (ℚ × ℚ)) :
    ∀ (n i : ℕ), i < sb.length →
      (weightChunks n sb).get? (2 * i) = some (((n + i : ℕ) : ℚ) + 1) ∧
      (weightChunks n sb).get? (2 * i + 1) = some (-(sb.getD i (0, 0)).1) := by
  induction sb with
  | nil => intro n i hi; simp at hi
  | cons s rest ih =>
      intro n i hi
      cases i with
      | zero => simp [weightChunks]
      | succ j =>
          have hj : j < rest.length := by simpa using hi
          have h2 : 2 * (j + 1) = (2 * j + 1) + 1 := by ring
          rw [h2]
          rw [weightChunks, List.get?_cons_succ, List.get?_cons_succ,
            List.getD_cons_succ]
          have := ih (n + 1) j hj
          refine ⟨?_, this.2⟩
          rw [this.1]
          congr 1
          push_cast
          ring

/-- C9: For every step breakdown, the sparse-tuple arc-weight token list
starts with the anchor `0`, has exactly one index token and one score
token per predictor (length `2n+1`, so the scores are never combined into
one scalar), and for predictor `i` carries `i+1` followed by the negation
of that predictor's ScoreEntry primary component. -/
theorem write_weight_sparse_tuple (sb : List (ℚ × ℚ)) (i : ℕ)
    (hi : i < sb.length) :
    (write_weight sb).get? 0 = some 0 ∧
    (write_weight sb).length = 2 * sb.length + 1 ∧
    (write_weight sb).get? (2 * i + 1) = some ((i : ℚ) + 1) ∧
    (write_weight sb).get? (2 * i + 2) = some (-(sb.getD i (0, 0)).1) := by
  rw [write_weight_eq]
  have hget := weightChunks_get sb 0 i hi
  refine ⟨rfl, by simp [weightChunks_length], ?_, ?_⟩
  · rw [List.get?_cons_succ, hget.1]
    congr 1
    push_cast
    ring
  · have h2 : 2 * i + 2 = (2 * i + 1) + 1 := by ring
    rw [h2, List.get?_cons_succ, hget.2]

/-- Witness for C9 at a concrete input: a two-predictor breakdown with
primary scores `-1/2` and `-1/3`, inspected at predictor index 1. -/
theorem write_weight_sparse_tuple_witness :
    (write_weight wSb).get? 0 = some 0 ∧
    (write_weight wSb).length = 2 * wSb.length + 1 ∧
    (write_weight wSb).get? (2 * 1 + 1) = some ((1 : ℚ) + 1) ∧
    (write_weight wSb).get? (2 * 1 + 2) = some (-(wSb.getD 1 (0, 0)).1) :=
  write_weight_sparse_tuple wSb 1 (by decide)

/-- Helper: `Except.map` on a success value. -/
theorem except_map_ok {ε α β : Type} (f : α → β) (x : α) :
    Except.map f (.ok x : Except ε α) = .ok (f x) := rfl

/-- Helper: `Except.bind` on a success value. -/
theorem except_bind_ok {ε α β : Type} (f : α → Except ε β) (x : α) :
    (Except.ok x : Except ε α).bind f = f x := rfl

/-- Helper: a list of files equals the range-indexed map of its entries. -/
theorem range_map_getD (l : List (List String)) :
    (List.range l.length).map (fun i => l.getD i []) = l := by
  apply List.ext_get?
  intro n
  rw [List.get?_map]
  rcases Nat.lt_or_ge n l.length with hn | hn
  · rw [List.get?_range hn, List.get?_eq_get hn]
    simp [List.getD_eq_get?, List.getElem?_eq_getElem hn]
  · rw [List.get?_eq_none.mpr (by simpa using hn),
      List.get?_eq_none.mpr (by exact hn)]
    rfl

/-- Helper: on a nonempty list the padding loop terminates without error
and appends copies of the last hypothesis up to the file count. -/
theorem padHypos_ok_aux :
    ∀ (k n : ℕ) (hypos : List OutHyp) (hne : hypos ≠ []),
      n - hypos.length = k →
      padHypos n hypos =
        .ok (hypos ++ List.replicate k (hypos.getLast hne)) := by
  intro k
  induction k with
  | zero =>
      intro n hypos hne hk
      unfold padHypos
      rw [dif_neg (by omega)]
      simp
  | succ j ih =>
      intro n hypos hne hk
      have hlt : hypos.length < n := by omega
      unfold padHypos
      rw [dif_pos hlt, List.getLast?_eq_getLast hypos hne]
      have hne' : hypos ++ [hypos.getLast hne] ≠ [] := by simp
      show padHypos n (hypos ++ [hypos.getLast hne]) = _
      rw [ih n (hypos ++ [hypos.getLast hne]) hne' (by simp; omega)]
      have hlast : (hypos ++ [hypos.getLast hne]).getLast hne'
          = hypos.getLast hne := List.getLast_concat hypos
      rw [hlast, List.append_assoc, List.singleton_append,
        ← List.replicate_succ]

/-- Helper: closed form of the padding loop. -/
theorem padHypos_ok (n : ℕ) (hypos : List OutHyp) (hne : hypos ≠ []) :
    padHypos n hypos =
      .ok (hypos ++ List.replicate (n - hypos.length) (hypos.getLast hne)) :=
  padHypos_ok_aux (n - hypos.length) n hypos hne rfl

/-- Helper: entry `i` of the padded list is rank `i` when available and
the last hypothesis otherwise. -/
theorem padded_getD (hypos : List OutHyp) (hne : hypos ≠ []) (n i : ℕ)
    (hi : i < n) :
    (hypos ++ List.replicate (n - hypos.length)
        (hypos.getLast hne)).getD i dummyHyp = nthOrLast i hypos := by
  unfold nthOrLast
  by_cases h : i < hypos.length
  · rw [if_pos h, List.getD_append _ _ _ _ h]
  · have hlen : hypos.length ≤ i := le_of_not_lt h
    rw [if_neg h, List.getD_append_right _ _ _ _ hlen]
    have hrep : i - hypos.length < n - hypos.length := by omega
    have hpos : 0 < hypos.length := List.length_pos.mpr hne
    rw [List.getD_eq_get? , List.getD_eq_get?]
    rw [List.get?_eq_get (by simpa using hrep),
      List.get?_eq_get (by omega : hypos.length - 1 < hypos.length)]
    simp [List.get_replicate, List.getLast_eq_get]

/-- Helper: one outer-loop iteration writes exactly one line to each
file, the decoded rank-`i`-or-last hypothesis to file `i`. -/
theorem nbsepStep_ok (files : List (List String)) (hypos : List OutHyp)
    (hne : hypos ≠ []) :
    nbsepStep files hypos = .ok ((List.range files.length).map (fun i =>
      files.getD i [] ++ [ioDecode (nthOrLast i hypos).trgt_sentence])) := by
  unfold nbsepStep
  rw [padHypos_ok files.length hypos hne, except_map_ok]
  congr 1
  apply List.map_congr_left
  intro i hi
  rw [List.mem_range] at hi
  rw [padded_getD hypos hne files.length i hi]

/-- Helper: the whole `write_hypos` loop, from any starting file
contents: it succeeds and appends one line per input to every file. -/
theorem nbsep_go :
    ∀ (all_hypos : List (List OutHyp)) (files : List (List String)),
      (∀ hypos ∈ all_hypos, hypos ≠ []) →
      NBestSeparate_write_hypos files all_hypos =
        .ok ((List.range files.length).map (fun i => files.getD i [] ++
          all_hypos.map
            (fun hypos => ioDecode (nthOrLast i hypos).trgt_sentence))) := by
  intro all_hypos
  induction all_hypos with
  | nil =>
      intro files _
      simp only [NBestSeparate_write_hypos, List.map_nil, List.append_nil]
      rw [range_map_getD files]
  | cons hypos rest ih =>
      intro files hne
      have hne1 : hypos ≠ [] := hne hypos (by simp)
      unfold NBestSeparate_write_hypos
      rw [nbsepStep_ok files hypos hne1, except_bind_ok]
      rw [ih _ (fun h hm => hne h (by simp [hm]))]
      congr 1
      have hlen : ((List.range files.length).map (fun i =>
          files.getD i [] ++
            [ioDecode (nthOrLast i hypos).trgt_sentence])).length
          = files.length := by simp
      rw [hlen]
      apply List.map_congr_left
      intro i hi
      rw [List.mem_range] at hi
      have hstep : ((List.range files.length).map (fun j =>
          files.getD j [] ++
            [ioDecode (nthOrLast j hypos).trgt_sentence])).getD i []
          = files.getD i [] ++ [ioDecode (nthOrLast i hypos).trgt_sentence]
          := by
        rw [List.getD_eq_get? , List.get?_map, List.get?_range hi]
        rfl
      rw [hstep, List.map_cons, List.append_assoc, List.singleton_append]

/-- C7: For `N` requested ranks and any sequence of nonempty n-best
lists, the per-rank serializer succeeds (no error for short lists) and
each of the `N` files receives exactly one line per input: the decoded
rank-`i` hypothesis, or the input's last available hypothesis repeated
when the list has fewer than `i+1` entries. -/
theorem nbsep_files_aligned (N : ℕ) (all_hypos : List (List OutHyp))
    (hne : ∀ hypos ∈ all_hypos, hypos ≠ []) :
    NBestSeparate_write_hypos (List.replicate N []) all_hypos =
      .ok ((List.range N).map (fun i => all_hypos.map
        (fun hypos => ioDecode (nthOrLast i hypos).trgt_sentence))) := by
  rw [nbsep_go all_hypos (List.replicate N []) hne]
  congr 1
  rw [List.length_replicate]
  apply List.map_congr_left
  intro i hi
  have hrep : (List.replicate N ([] : List String)).getD i [] = [] := by
    simp [List.getD_eq_get?]
  rw [hrep, List.nil_append]

/-- Witness for C7 at the spec's own example: three inputs with n-best
sizes 3, 1, 2 and requested rank count 3. -/
theorem nbsep_files_aligned_witness :
    NBestSeparate_write_hypos (List.replicate 3 []) wAll =
      .ok ((List.range 3).map (fun i => wAll.map
        (fun hypos => ioDecode (nthOrLast i hypos).trgt_sentence))) :=
  nbsep_files_aligned 3 wAll (by decide)

/-- Helper: the name-derivation loop preserves the list length. -/
theorem initPredictorNames_length (names : List String) :
    ∀ m : String → ℕ, (initPredictorNames m names).length = names.length := by
  induction names with
  | nil => intro m; rfl
  | cons name rest ih =>
      intro m
      unfold initPredictorNames
      by_cases hm : m name = 0
      · rw [if_pos hm]; simp [ih]
      · rw [if_neg hm]; simp [ih]

/-- Helper: pointwise characterization of the name-derivation loop: with
starting counts `m`, position `i` yields the name suffixed by its total
occurrence count (starting count plus occurrences among the first `i+1`
names) when that count exceeds one, then underscore-replaced. -/
theorem initPredictorNames_get (names : List String) :
    ∀ (i : ℕ) (hi : i < names.length) (m : String → ℕ),
      (initPredictorNames m names).get? i = some (replaceUnderscores
        (if m (names.get ⟨i, hi⟩) +
            (names.take (i + 1)).count (names.get ⟨i, hi⟩) = 1
         then names.get ⟨i, hi⟩
         else names.get ⟨i, hi⟩ ++ toString (m (names.get ⟨i, hi⟩) +
            (names.take (i + 1)).count (names.get ⟨i, hi⟩)))) := by
  induction names with
  | nil => intro i hi; simp at hi
  | cons name rest ih =>
      intro i hi m
      cases i with
      | zero =>
          unfold initPredictorNames
          have hcount : ((name :: rest).take 1).count name = 1 := by
            simp [List.count_cons]
          by_cases hm : m name = 0
          · rw [if_pos hm]
            simp only [List.get?_cons_zero, List.get]
            rw [hcount, hm]
            simp
          · rw [if_neg hm]
            simp only [List.get?_cons_zero, List.get]
            rw [hcount, if_neg (by omega)]
      | succ j =>
          have hj : j < rest.length := by simpa using hi
          have hget : (name :: rest).get ⟨j + 1, hi⟩ = rest.get ⟨j, hj⟩ := rfl
          have hcount : ((name :: rest).take (j + 2)).count (rest.get ⟨j, hj⟩)
              = (rest.take (j + 1)).count (rest.get ⟨j, hj⟩) +
                (if name = rest.get ⟨j, hj⟩ then 1 else 0) := by
            rw [List.take_succ_cons, List.count_cons]
            simp [beq_iff_eq]
          unfold initPredictorNames
          by_cases hm : m name = 0
          · rw [if_pos hm, List.get?_cons_succ,
              ih j hj (fun s => if s = name then 1 else m s)]
            rw [hget, hcount]
            have harith : (if rest.get ⟨j, hj⟩ = name then 1
                  else m (rest.get ⟨j, hj⟩)) +
                (rest.take (j + 1)).count (rest.get ⟨j, hj⟩)
                = m (rest.get ⟨j, hj⟩) +
                  ((rest.take (j + 1)).count (rest.get ⟨j, hj⟩) +
                    (if name = rest.get ⟨j, hj⟩ then 1 else 0)) := by
              by_cases hnm : rest.get ⟨j, hj⟩ = name
              · rw [if_pos hnm, if_pos hnm.symm, hnm, hm]; omega
              · rw [if_neg hnm, if_neg (fun h => hnm h.symm)]; omega
            rw [← harith]
          · rw [if_neg hm, List.get?_cons_succ,
              ih j hj (fun s => if s = name then m name + 1 else m s)]
            rw [hget, hcount]
            have harith : (if rest.get ⟨j, hj⟩ = name then m name + 1
                  else m (rest.get ⟨j, hj⟩)) +
                (rest.take (j + 1)).count (rest.get ⟨j, hj⟩)
                = m (rest.get ⟨j, hj⟩) +
                  ((rest.take (j + 1)).count (rest.get ⟨j, hj⟩) +
                    (if name = rest.get ⟨j, hj⟩ then 1 else 0)) := by
              by_cases hnm : rest.get ⟨j, hj⟩ = name
              · rw [if_pos hnm, if_pos hnm.symm, hnm]; omega
              · rw [if_neg hnm, if_neg (fun h => hnm h.symm)]; omega
            rw [← harith]

/-- C10: The Moses n-best predictor names are derived from the configured
names by keeping a first occurrence as-is, suffixing the k-th repeated
occurrence (k at least 2) with k, and then replacing every underscore by
the digit 0; the result stays positionally aligned (same length, position
`i` derived from input position `i`). -/
theorem predictor_names_derived (names : List String) (i : ℕ)
    (hi : i < names.length) :
    (predictorNames names).length = names.length ∧
    (predictorNames names).get? i = some (replaceUnderscores
      (if (names.take (i + 1)).count (names.get ⟨i, hi⟩) = 1
       then names.get ⟨i, hi⟩
       else names.get ⟨i, hi⟩ ++
         toString ((names.take (i + 1)).count (names.get ⟨i, hi⟩)))) := by
  refine ⟨initPredictorNames_length names _, ?_⟩
  have h := initPredictorNames_get names i hi (fun _ => 0)
  simpa using h

/-- Witness for C10 at a concrete input: names `tr, lm, tr, f_x`; the
second `tr` becomes `tr2` and `f_x` becomes `f0x`. -/
theorem predictor_names_derived_witness :
    (predictorNames ["tr", "lm", "tr", "f_x"]).length = 4 ∧
    (predictorNames ["tr", "lm", "tr", "f_x"]).get? 2 = some "tr2" ∧
    (predictorNames ["tr", "lm", "tr", "f_x"]).get? 3 = some "f0x" := by
  have h2 := predictor_names_derived ["tr", "lm", "tr", "f_x"] 2 (by decide)
  have h3 := predictor_names_derived ["tr", "lm", "tr", "f_x"] 3 (by decide)
  refine ⟨by simpa using h2.1, ?_, ?_⟩
  · rw [h2.2]; decide
  · rw [h3.2]; decide

/-- Helper: every hypothesis contributes the end-of-sequence unigram
whenever unigrams are extracted: at the final position the one-symbol
tail of the padded sequence is exactly `[EOS_ID]`. -/
theorem hypoHasNgram_eos (minOrder maxOrder : ℕ) (hmin : minOrder ≤ 1)
    (hmax : 1 ≤ maxOrder) (h : NgramHyp) :
    hypoHasNgram minOrder maxOrder (senEos h) [EOS_ID] = true := by
  have hlen : (senEos h).length = h.trgt_sentence.length + 2 := by
    simp [senEos]
  unfold hypoHasNgram
  rw [List.any_eq_true]
  refine ⟨(senEos h).length - 1, List.mem_range.mpr (by omega), ?_⟩
  rw [List.any_eq_true]
  refine ⟨1 - minOrder, List.mem_range.mpr (by omega), ?_⟩
  have h1 : minOrder + (1 - minOrder) = 1 := by omega
  have h2 : (senEos h).length - 1 + 1 = (senEos h).length := by omega
  rw [h1, h2, List.take_length]
  unfold pyTail
  rw [if_neg one_ne_zero]
  have hdrop : (senEos h).drop ((senEos h).length - 1) = [EOS_ID] := by
    show (GO_ID :: (h.trgt_sentence ++ [EOS_ID])).drop
      ((senEos h).length - 1) = [EOS_ID]
    rw [hlen]
    have h3 : h.trgt_sentence.length + 2 - 1 = h.trgt_sentence.length + 1 :=
      by omega
    rw [h3, List.drop_succ_cons]
    have h4 : h.trgt_sentence.length = (h.trgt_sentence).length := rfl
    rw [show (h.trgt_sentence ++ [EOS_ID]).drop h.trgt_sentence.length
        = [EOS_ID] from List.drop_left h.trgt_sentence [EOS_ID]]
  rw [hdrop]
  decide

/-- Helper: the exponentiated log-sum of the renormalized scores of the
full hypothesis list is exactly one. -/
theorem exp_log_sum_normed (hypos : List NgramHyp) (hne : hypos ≠ []) :
    Real.exp (log_sum (hypos.map (fun h =>
      h.total_score - log_sum (hypos.map NgramHyp.total_score)))) = 1 := by
  have hE : (0 : ℝ) < ((hypos.map NgramHyp.total_score).map Real.exp).sum := by
    apply List.sum_pos
    · intro x hx
      obtain ⟨y, _, rfl⟩ := List.mem_map.mp hx
      exact Real.exp_pos y
    · simp [hne]
  have hmain : ((hypos.map (fun h =>
      h.total_score - log_sum (hypos.map NgramHyp.total_score))).map
        Real.exp).sum = 1 := by
    rw [List.map_map]
    have hcomp : hypos.map (Real.exp ∘ fun h =>
          h.total_score - log_sum (hypos.map NgramHyp.total_score))
        = hypos.map (fun h => Real.exp h.total_score *
            (((hypos.map NgramHyp.total_score).map Real.exp).sum)⁻¹) := by
      apply List.map_congr_left
      intro h _
      simp only [Function.comp]
      unfold log_sum
      rw [Real.exp_sub, Real.exp_log hE, div_eq_mul_inv]
    rw [hcomp, List.sum_map_mul_right]
    have hE2 : (hypos.map (fun b => Real.exp b.total_score)).sum
        = ((hypos.map NgramHyp.total_score).map Real.exp).sum := by
      rw [List.map_map]
      rfl
    rw [hE2, mul_inv_cancel₀ (ne_of_gt hE)]
  show Real.exp (Real.log ((hypos.map (fun h =>
    h.total_score - log_sum (hypos.map NgramHyp.total_score))).map
      Real.exp).sum) = 1
  rw [hmain, Real.log_one, Real.exp_zero]

/-- C8: Every probability written by the ngram posterior serializer lies
in `[0, 1]` (the posterior mass is exponentiated, hence nonnegative, and
clipped at `1.0`), and whenever every hypothesis ends in end-of-sequence
(indeed unconditionally, since the collection loop always pads with the
end-of-sequence symbol), the posterior written for the end-of-sequence
unigram is exactly `1`, provided unigrams are within the extracted order
range and the list is nonempty. -/
theorem ngram_posterior_unit_and_eos (hypos : List NgramHyp)
    (minOrder maxOrder : ℕ) (hne : hypos ≠ []) (hmin : minOrder ≤ 1)
    (hmax : 1 ≤ maxOrder)
    (hend : ∀ h ∈ hypos, h.trgt_sentence.getLast? = some EOS_ID) :
    (∀ g, 0 ≤ min 1 (ngramPosterior hypos minOrder maxOrder g) ∧
        min 1 (ngramPosterior hypos minOrder maxOrder g) ≤ 1) ∧
    min 1 (ngramPosterior hypos minOrder maxOrder [EOS_ID]) = 1 := by
  constructor
  · intro g
    refine ⟨le_min zero_le_one ?_, min_le_left _ _⟩
    unfold ngramPosterior
    exact (Real.exp_pos _).le
  · unfold ngramPosterior
    rw [List.filter_eq_self.mpr
      (fun h _ => hypoHasNgram_eos minOrder maxOrder hmin hmax h)]
    rw [exp_log_sum_normed hypos hne]
    exact min_self 1

/-- Witness for C8 at a concrete input: a single hypothesis `[2]` (ending
in the end-of-sequence symbol) with log-score `-1`, orders 1 to 2; its
probabilities are in `[0,1]` and the end-of-sequence unigram posterior is
exactly `1`. -/
theorem ngram_posterior_unit_and_eos_witness :
    (0 ≤ min 1 (ngramPosterior [⟨[2], -1⟩] 1 2 [GO_ID]) ∧
        min 1 (ngramPosterior [⟨[2], -1⟩] 1 2 [GO_ID]) ≤ 1) ∧
    min 1 (ngramPosterior [⟨[2], -1⟩] 1 2 [EOS_ID]) = 1 := by
  have hend : ∀ h ∈ [(⟨[2], -1⟩ : NgramHyp)],
      h.trgt_sentence.getLast? = some EOS_ID := by
    intro h hm
    rw [List.mem_singleton] at hm
    subst hm
    rfl
  have h := ngram_posterior_unit_and_eos [⟨[2], -1⟩] 1 2 (by simp)
    (by norm_num) (by norm_num) hend
  exact ⟨h.1 [GO_ID], h.2⟩
